import Mathlib

/-!
Verification of the checkpoint registry (`src/checkpoints/checkpoints.cpp`,
namespace `cryptonote`, class `checkpoints`).

The member field `m_points : std::map<uint64_t, crypto::hash>` is modelled as an
association list `Store := List (Nat × Hash)`; `std::map` keeps keys unique, so
theorems that depend on that invariant take a `Nodup` hypothesis on the key list.
Every query of the source that exploits the ordering of the map (the greatest
key via `max_element` or `--end()`, the greatest key at or below a bound via
`upper_bound` followed by a decrement) is translated to the corresponding
maximum over the key list, which agrees with the iterator computation on any
ordered unique-key map.

Fallible operations return pairs `(Bool × Store)` mirroring the `bool` result
plus the mutated member map. The one undefined behavior in the source (the
`get_max_height` end-iterator dereference on an empty map) is modelled by an
`Option` result whose `none` marks the undefined case.
-/

set_option autoImplicit false

namespace cryptonote

/-- A block hash (`crypto::hash`): a 32-byte binary digest, modelled as the list
of its byte values. -/
abbrev Hash := List Nat

/-- `crypto::null_hash`: the all-zero hash. -/
def null_hash : Hash := List.replicate 32 0

/-- The member map `m_points : std::map<uint64_t, crypto::hash>`, modelled as an
association list from height to hash. -/
abbrev Store := List (Nat × Hash)

/-- The key set of the map: the heights present in the Store. -/
def keys (s : Store) : List Nat := s.map Prod.fst

/-- `m_points.find(height)` / `m_points.at(height)`: the hash stored at a
height, if any. -/
def lookup : Store → Nat → Option Hash
  | [], _ => none
  | p :: rest, k => if p.1 = k then some p.2 else lookup rest k

/-- `m_points.count(height)`: whether the map holds an entry at the height. -/
def countKey : Store → Nat → Bool
  | [], _ => false
  | p :: rest, k => decide (p.1 = k) || countKey rest k

/-- `m_points[height] = h`: insert-or-assign on the map. On an association list
with unique keys this replaces the entry at the key when present and otherwise
adds a new entry. -/
def insertPoint : Store → Nat → Hash → Store
  | [], k, v => [(k, v)]
  | p :: rest, k, v => if p.1 = k then (k, v) :: rest else p :: insertPoint rest k v

/-- Modelled from the spec: one digit of the external hex codec
(`epee::string_tools`, outside this module). A hex digit is `0-9`, `a-f` or
`A-F`; anything else is a decode failure. -/
def hexDigit (c : Char) : Option Nat :=
  if Char.ofNat 48 ≤ c ∧ c ≤ Char.ofNat 57 then some (c.toNat - 48)
  else if Char.ofNat 97 ≤ c ∧ c ≤ Char.ofNat 102 then some (c.toNat - 97 + 10)
  else if Char.ofNat 65 ≤ c ∧ c ≤ Char.ofNat 70 then some (c.toNat - 65 + 10)
  else none

/-- Modelled from the spec: decoding a list of hex characters two at a time into
bytes; fails on a dangling digit or on any non-hex character. -/
def hexBytes : List Char → Option (List Nat)
  | [] => some []
  | [_] => none
  | c1 :: c2 :: rest =>
    (hexDigit c1).bind fun hi =>
      (hexDigit c2).bind fun lo =>
        (hexBytes rest).map fun bs => (16 * hi + lo) :: bs

/-- Modelled from the spec: `epee::string_tools::hex_to_pod` into a
`crypto::hash`, which is missing from the given sources (the spec lists the
hex/binary hash codec as an external collaborator). Per the spec the hash text
decodes to exactly 32 bytes and any other length or non-hex content is a decode
failure, so the text must be exactly 64 hex characters. -/
def hex_to_pod (str : String) : Option Hash :=
  if str.length = 64 then hexBytes str.data else none

/-- `checkpoints::add_checkpoint(height, hash_str)`: decode the hash text; on
decode failure return `false` leaving the map untouched; if an entry already
exists at the height with a different hash return `false` leaving the map
untouched; otherwise assign `m_points[height] = h` and return `true`. -/
def add_checkpoint (s : Store) (height : Nat) (hash_str : String) : Bool × Store :=
  match hex_to_pod hash_str with
  | none => (false, s)
  | some h =>
    if countKey s height = true ∧ lookup s height ≠ some h then (false, s)
    else (true, insertPoint s height h)

/-- `checkpoints::get_max_height()`: `std::max_element` over the map compared on
keys, after which the resulting iterator is dereferenced unconditionally. On an
empty map `max_element` returns the end iterator and the dereference is
undefined behavior; `none` models that undefined case. On a non-empty map the
result is the greatest key. -/
def get_max_height (s : Store) : Option Nat :=
  match keys s with
  | [] => none
  | k :: ks => some (ks.foldl max k)

/-- `checkpoints::is_in_checkpoint_zone(height)`: the source computes
`!m_points.empty() && (height <= (--m_points.end())->first)`; the decremented
end iterator of the ordered map points at the entry with the greatest key,
guarded by the short-circuit emptiness test. -/
def is_in_checkpoint_zone (s : Store) (height : Nat) : Bool :=
  !s.isEmpty && decide (height ≤ (get_max_height s).getD 0)

/-- `checkpoints::check_block(height, h, is_a_checkpoint)`: the returned pair is
(accepted, is_a_checkpoint), combining the `bool` return value with the `bool&`
out-parameter. -/
def check_block (s : Store) (height : Nat) (h : Hash) : Bool × Bool :=
  match lookup s height with
  | none => (true, false)
  | some h0 => (decide (h0 = h), true)

/-- `m_points.upper_bound(x)` followed by the begin-test and the decrement in
`is_alternative_block_allowed`: the greatest key at or below `x`, or `none` when
the upper bound is `begin()`, that is when every key is above `x`. -/
def nearestBelow (s : Store) (x : Nat) : Option Nat :=
  match (keys s).filter (fun k => decide (k ≤ x)) with
  | [] => none
  | k :: ks => some (ks.foldl max k)

/-- `checkpoints::is_alternative_block_allowed(blockchain_height, block_height)`. -/
def is_alternative_block_allowed (s : Store) (blockchain_height block_height : Nat) : Bool :=
  if block_height = 0 then false
  else
    match nearestBelow s blockchain_height with
    | none => true
    | some checkpoint_height => decide (checkpoint_height < block_height)

/-- `checkpoints::check_for_conflicts(other)`: walk the entries of the other
Store; whenever this Store holds the same height, the two hashes must agree,
else the walk fails. The method is `const` on both Stores, hence modelled as a
pure function returning only the verdict. -/
def check_for_conflicts (s other : Store) : Bool :=
  other.all (fun pt =>
    if countKey s pt.1 = true then decide (lookup s pt.1 = some pt.2) else true)

/-- The body of the merge loop of `checkpoints::load_checkpoints_from_json`:
entries are walked in document order; an entry at or below the pre-call maximum
height is skipped with only a log line; a higher entry goes through
`ADD_CHECKPOINT`, which per the spec runs the standard add path and aborts the
remaining merge with `false` on failure, preserving entries already merged. -/
def processLines (prev_max : Nat) : List (Nat × String) → Store → Bool × Store
  | [], s => (true, s)
  | (height, blockhash) :: rest, s =>
    if height ≤ prev_max then processLines prev_max rest s
    else
      match add_checkpoint s height blockhash with
      | (true, s2) => processLines prev_max rest s2
      | (false, s2) => (false, s2)

/-- The standard add path applied sequentially to a list of hashlines, aborting
on the first failure while keeping entries already added. Used to state what the
merge loop computes on the entries that survive the height-based skip. -/
def foldAdd : List (Nat × String) → Store → Bool × Store
  | [], s => (true, s)
  | (height, blockhash) :: rest, s =>
    match add_checkpoint s height blockhash with
    | (true, s2) => foldAdd rest s2
    | (false, s2) => (false, s2)

/-- `checkpoints::load_checkpoints_from_json(path)`. The filesystem probe and
the JSON parser are external collaborators, so the document is passed as data:
`doc = none` means the file does not exist at the path, `doc = some none` means
it exists but fails to parse into the hashline schema, and `doc = some (some
lines)` is a successfully parsed document. Mirroring the source order: a missing
file returns success immediately; otherwise `get_max_height()` runs BEFORE the
parse, so the outer `Option` of the result is `none` exactly when that call hits
its empty-map undefined behavior; then a parse failure returns `false`, and
otherwise the merge loop runs. In the `some` cases the pair is the `bool` return
value together with the resulting Store. -/
def load_checkpoints_from_json (doc : Option (Option (List (Nat × String))))
    (s : Store) : Option (Bool × Store) :=
  match doc with
  | none => some (true, s)
  | some parsed =>
    match get_max_height s with
    | none => none
    | some prev_max =>
      match parsed with
      | none => some (false, s)
      | some lines => some (processLines prev_max lines s)

/-! ### Helper lemmas about the map model -/

theorem foldl_max_le_iff (l : List Nat) (a x : Nat) :
    l.foldl max a ≤ x ↔ a ≤ x ∧ ∀ b ∈ l, b ≤ x := by
  induction l generalizing a with
  | nil => simp
  | cons b l ih =>
    rw [List.foldl_cons, ih]
    simp [max_le_iff, and_assoc]

theorem foldl_max_mem (l : List Nat) (a : Nat) :
    l.foldl max a = a ∨ l.foldl max a ∈ l := by
  induction l generalizing a with
  | nil => exact Or.inl rfl
  | cons b l ih =>
    rw [List.foldl_cons]
    rcases ih (max a b) with h | h
    · rcases le_total a b with hab | hab
      · exact Or.inr (by rw [h, max_eq_right hab]; exact List.mem_cons_self b l)
      · exact Or.inl (by rw [h, max_eq_left hab])
    · exact Or.inr (List.mem_cons_of_mem b h)

theorem lookup_eq_none_iff (s : Store) (k : Nat) :
    lookup s k = none ↔ k ∉ keys s := by
  induction s with
  | nil => simp [lookup, keys]
  | cons p rest ih =>
    by_cases hpk : p.1 = k
    · simp [lookup, keys, hpk]
    · simp [lookup, keys, hpk, ih, Ne.symm hpk]

theorem countKey_eq_true_iff (s : Store) (k : Nat) :
    countKey s k = true ↔ k ∈ keys s := by
  induction s with
  | nil => simp [countKey, keys]
  | cons p rest ih =>
    by_cases hpk : p.1 = k
    · simp [countKey, keys, hpk]
    · simp [countKey, keys, hpk, ih, Ne.symm hpk]

theorem lookup_mem (s : Store) (k : Nat) (v : Hash) (h : lookup s k = some v) :
    (k, v) ∈ s := by
  induction s with
  | nil => simp [lookup] at h
  | cons p rest ih =>
    obtain ⟨p1, p2⟩ := p
    by_cases hpk : p1 = k
    · subst hpk
      simp only [lookup] at h
      simp at h
      subst h
      exact List.mem_cons_self _ _
    · simp only [lookup] at h
      simp [hpk] at h
      exact List.mem_cons_of_mem _ (ih h)

theorem lookup_eq_of_mem (s : Store) (k : Nat) (v : Hash)
    (hnd : (keys s).Nodup) (hmem : (k, v) ∈ s) : lookup s k = some v := by
  induction s with
  | nil => simp at hmem
  | cons p rest ih =>
    rw [keys, List.map_cons, List.nodup_cons] at hnd
    rcases List.mem_cons.mp hmem with rfl | htail
    · simp [lookup]
    · have hk : k ∈ keys rest := List.mem_map_of_mem Prod.fst htail
      have hpk : p.1 ≠ k := fun h => hnd.1 (h ▸ hk)
      rw [lookup, if_neg hpk]
      exact ih hnd.2 htail

theorem insertPoint_eq_self (s : Store) (k : Nat) (v : Hash)
    (h : lookup s k = some v) : insertPoint s k v = s := by
  induction s with
  | nil => simp [lookup] at h
  | cons p rest ih =>
    by_cases hpk : p.1 = k
    · rw [lookup, if_pos hpk] at h
      obtain rfl : p.2 = v := Option.some_injective _ h
      rw [insertPoint, if_pos hpk, ← hpk]
    · rw [lookup, if_neg hpk] at h
      rw [insertPoint, if_neg hpk, ih h]

theorem mem_keys_insertPoint (s : Store) (k : Nat) (v : Hash) :
    k ∈ keys (insertPoint s k v) := by
  induction s with
  | nil => simp [insertPoint, keys]
  | cons p rest ih =>
    by_cases hpk : p.1 = k
    · simp [insertPoint, hpk, keys]
    · simpa [insertPoint, hpk, keys] using Or.inr ih

theorem keys_insertPoint_subset (s : Store) (k : Nat) (v : Hash) :
    ∀ k2 ∈ keys (insertPoint s k v), k2 = k ∨ k2 ∈ keys s := by
  induction s with
  | nil => simp [insertPoint, keys]
  | cons p rest ih =>
    intro k2 hk2
    by_cases hpk : p.1 = k
    · rw [insertPoint, if_pos hpk] at hk2
      rcases (by simpa [keys] using hk2 : k2 = k ∨ k2 ∈ keys rest) with h | h
      · exact Or.inl h
      · exact Or.inr (by simp [keys]; right; simpa [keys] using h)
    · rw [insertPoint, if_neg hpk] at hk2
      rcases (by simpa [keys] using hk2 : k2 = p.1 ∨ k2 ∈ keys (insertPoint rest k v)) with h | h
      · exact Or.inr (by simp [keys, h])
      · rcases ih k2 h with h2 | h2
        · exact Or.inl h2
        · exact Or.inr (by simp [keys]; right; simpa [keys] using h2)

theorem get_max_height_eq_none_iff (s : Store) :
    get_max_height s = none ↔ s = [] := by
  cases s <;> simp [get_max_height, keys]

theorem get_max_height_some_spec (s : Store) (m : Nat)
    (h : get_max_height s = some m) : m ∈ keys s ∧ ∀ k ∈ keys s, k ≤ m := by
  rw [get_max_height] at h
  cases hk : keys s with
  | nil => rw [hk] at h; exact Option.noConfusion h
  | cons k0 ks =>
    rw [hk] at h
    obtain rfl : ks.foldl max k0 = m := Option.some_injective _ h
    constructor
    · rcases foldl_max_mem ks k0 with h2 | h2
      · rw [h2]; exact List.mem_cons_self _ _
      · exact List.mem_cons_of_mem _ h2
    · intro k hkmem
      have hle := (foldl_max_le_iff ks k0 (ks.foldl max k0)).mp le_rfl
      rcases List.mem_cons.mp hkmem with rfl | h2
      · exact hle.1
      · exact hle.2 k h2

theorem nearestBelow_eq_none_iff (s : Store) (x : Nat) :
    nearestBelow s x = none ↔ ∀ k ∈ keys s, x < k := by
  rw [nearestBelow]
  cases hf : (keys s).filter (fun k => decide (k ≤ x)) with
  | nil =>
    refine ⟨fun _ k hk => ?_, fun _ => rfl⟩
    by_contra hlt
    have hkle : k ≤ x := Nat.le_of_not_lt hlt
    have hmem : k ∈ (keys s).filter (fun k2 => decide (k2 ≤ x)) :=
      List.mem_filter.mpr ⟨hk, by simpa using hkle⟩
    rw [hf] at hmem
    simp at hmem
  | cons k0 ks =>
    constructor
    · intro h2
      exact Option.noConfusion h2
    · intro hall
      exfalso
      have hk0 : k0 ∈ (keys s).filter (fun k2 => decide (k2 ≤ x)) := by
        rw [hf]; exact List.mem_cons_self _ _
      have h2 := List.mem_filter.mp hk0
      exact Nat.not_lt.mpr (by simpa using h2.2) (hall k0 h2.1)

theorem nearestBelow_some_spec (s : Store) (x P : Nat)
    (h : nearestBelow s x = some P) :
    P ∈ keys s ∧ P ≤ x ∧ ∀ k ∈ keys s, k ≤ x → k ≤ P := by
  rw [nearestBelow] at h
  cases hf : (keys s).filter (fun k => decide (k ≤ x)) with
  | nil => rw [hf] at h; exact Option.noConfusion h
  | cons k0 ks =>
    rw [hf] at h
    obtain rfl : ks.foldl max k0 = P := Option.some_injective _ h
    have hPf : ks.foldl max k0 ∈ (keys s).filter (fun k2 => decide (k2 ≤ x)) := by
      rw [hf]
      rcases foldl_max_mem ks k0 with h2 | h2
      · rw [h2]; exact List.mem_cons_self _ _
      · exact List.mem_cons_of_mem _ h2
    have hPmem := List.mem_filter.mp hPf
    refine ⟨hPmem.1, by simpa using hPmem.2, ?_⟩
    intro k hkmem hkle
    have hkf : k ∈ (keys s).filter (fun k2 => decide (k2 ≤ x)) :=
      List.mem_filter.mpr ⟨hkmem, by simpa using hkle⟩
    rw [hf] at hkf
    have hub := (foldl_max_le_iff ks k0 (ks.foldl max k0)).mp le_rfl
    rcases List.mem_cons.mp hkf with rfl | h2
    · exact hub.1
    · exact hub.2 k h2

theorem countKey_lookup (s : Store) (k : Nat) :
    countKey s k = true ↔ ∃ v, lookup s k = some v := by
  rw [countKey_eq_true_iff]
  constructor
  · intro hk
    rcases hcase : lookup s k with _ | v
    · exact absurd hk ((lookup_eq_none_iff s k).mp hcase)
    · exact ⟨v, rfl⟩
  · rintro ⟨v, hv⟩
    by_contra hk
    exact Option.noConfusion (hv.symm.trans ((lookup_eq_none_iff s k).mpr hk))

theorem add_checkpoint_of_decode_fail (s : Store) (height : Nat) (str : String)
    (h : hex_to_pod str = none) : add_checkpoint s height str = (false, s) := by
  rw [add_checkpoint, h]

/-! ### Helper lemmas about the hex decoder -/

theorem hexBytes_some_length : ∀ (l : List Char) (bs : List Nat),
    hexBytes l = some bs → 2 * bs.length = l.length
  | [], bs, h => by
    simp only [hexBytes, Option.some.injEq] at h
    subst h
    rfl
  | [_], _, h => by simp [hexBytes] at h
  | c1 :: c2 :: rest, bs, h => by
    simp only [hexBytes, Option.bind_eq_some, Option.map_eq_some'] at h
    obtain ⟨hi, h1, lo, h2, bs2, h3, rfl⟩ := h
    have ih := hexBytes_some_length rest bs2 h3
    simp only [List.length_cons]
    omega

theorem hexBytes_eq_none_of_bad : ∀ (l : List Char) (c : Char),
    c ∈ l → hexDigit c = none → hexBytes l = none
  | [], c, hc, _ => absurd hc (List.not_mem_nil c)
  | [_], _, _, _ => rfl
  | c1 :: c2 :: rest, c, hc, hbad => by
    rcases List.mem_cons.mp hc with rfl | hc2
    · simp [hexBytes, hbad]
    · rcases List.mem_cons.mp hc2 with rfl | hc3
      · cases h1 : hexDigit c1 <;> simp [hexBytes, h1, hbad]
      · have ih := hexBytes_eq_none_of_bad rest c hc3 hbad
        cases h1 : hexDigit c1 <;> cases h2 : hexDigit c2 <;>
          simp [hexBytes, h1, h2, ih]

theorem hex_to_pod_some_length (str : String) (h : Hash)
    (hsome : hex_to_pod str = some h) : h.length = 32 := by
  rw [hex_to_pod] at hsome
  by_cases h64 : str.length = 64
  · rw [if_pos h64] at hsome
    have hlen := hexBytes_some_length _ _ hsome
    have hd : str.data.length = 64 := h64
    omega
  · rw [if_neg h64] at hsome
    exact Option.noConfusion hsome

theorem hex_to_pod_eq_none (str : String)
    (hbad : str.length ≠ 64 ∨ ∃ c ∈ str.data, hexDigit c = none) :
    hex_to_pod str = none := by
  rw [hex_to_pod]
  by_cases h64 : str.length = 64
  · rw [if_pos h64]
    rcases hbad with h | ⟨c, hc, hcbad⟩
    · exact absurd h64 h
    · exact hexBytes_eq_none_of_bad _ c hc hcbad
  · rw [if_neg h64]

/-! ### Helper lemmas about the merge loop -/

theorem processLines_eq_foldAdd_filter (pm : Nat) (lines : List (Nat × String)) (s : Store) :
    processLines pm lines s = foldAdd (lines.filter (fun e => decide (pm < e.1))) s := by
  induction lines generalizing s with
  | nil => rfl
  | cons e rest ih =>
    obtain ⟨height, str⟩ := e
    rw [List.filter_cons]
    by_cases hle : height ≤ pm
    · have hfalse : decide (pm < (height, str).1) = false := by
        simp [Nat.not_lt.mpr hle]
      rw [processLines, if_pos hle, hfalse, if_neg (by simp)]
      exact ih s
    · have htrue : decide (pm < (height, str).1) = true := by
        simp [Nat.lt_of_not_le hle]
      rw [processLines, if_neg hle, htrue, if_pos rfl, foldAdd]
      cases hadd : add_checkpoint s height str with
      | mk b s2 =>
        cases b
        · rfl
        · exact ih s2

theorem in_zone_iff (s : Store) (height : Nat) :
    is_in_checkpoint_zone s height = true ↔ ∃ k ∈ keys s, height ≤ k := by
  cases s with
  | nil => simp [is_in_checkpoint_zone, keys]
  | cons p rest =>
    rw [is_in_checkpoint_zone]
    obtain ⟨m, hm⟩ : ∃ m, get_max_height (p :: rest) = some m := ⟨_, rfl⟩
    obtain ⟨hmmem, hmub⟩ := get_max_height_some_spec _ m hm
    rw [hm]
    simp only [List.isEmpty_cons, Bool.not_false, Bool.true_and, Option.getD_some,
      decide_eq_true_eq]
    constructor
    · intro hle
      exact ⟨m, hmmem, hle⟩
    · rintro ⟨k, hk, hlek⟩
      exact le_trans hlek (hmub k hk)

/-! ### The claims -/

/-- Claim C1: the spec describes `get_max_height` as returning the greatest
height present or an explicit empty indication, well-defined on an empty Store.
The source instead dereferences the `max_element` result unconditionally, which
on the empty map is the end iterator (undefined behavior, modelled `none`): no
explicit empty result exists, so the claim describes the intent and the code is
the slip. On a non-empty Store the greatest key is returned as claimed. -/
theorem get_max_height_empty_undefined :
    get_max_height ([] : Store) = none ∧
    ∀ (s : Store) (m : Nat), get_max_height s = some m →
      m ∈ keys s ∧ ∀ k ∈ keys s, k ≤ m :=
  ⟨rfl, fun s m h => get_max_height_some_spec s m h⟩

theorem get_max_height_empty_undefined_witness :
    (5 : Nat) ∈ keys [(5, null_hash)] ∧ ∀ k ∈ keys [(5, null_hash)], k ≤ 5 :=
  get_max_height_empty_undefined.2 [(5, null_hash)] 5 (by decide)

/-- Claim C2: `is_alternative_block_allowed` returns false whenever the
candidate height is 0; returns true when no checkpoint lies at or below the
current best height; and when `P` is the greatest checkpoint height at or below
the current best height, returns true iff the candidate height exceeds `P`. -/
theorem is_alternative_block_allowed_spec (s : Store) (bh cand : Nat) :
    (cand = 0 → is_alternative_block_allowed s bh cand = false) ∧
    ((∀ k ∈ keys s, bh < k) → cand ≠ 0 →
      is_alternative_block_allowed s bh cand = true) ∧
    (∀ P, P ∈ keys s → P ≤ bh → (∀ k ∈ keys s, k ≤ bh → k ≤ P) →
      (is_alternative_block_allowed s bh cand = true ↔ P < cand)) := by
  refine ⟨?_, ?_, ?_⟩
  · intro h0
    rw [is_alternative_block_allowed, if_pos h0]
  · intro hnone hne
    rw [is_alternative_block_allowed, if_neg hne,
      (nearestBelow_eq_none_iff s bh).mpr hnone]
  · intro P hPmem hPle hPmax
    cases hq : nearestBelow s bh with
    | none =>
      exact absurd ((nearestBelow_eq_none_iff s bh).mp hq P hPmem)
        (Nat.not_lt.mpr hPle)
    | some Q =>
      obtain ⟨hQmem, hQle, hQmax⟩ := nearestBelow_some_spec s bh Q hq
      obtain rfl : Q = P := le_antisymm (hPmax Q hQmem hQle) (hQmax P hPmem hPle)
      by_cases h0 : cand = 0
      · subst h0
        rw [is_alternative_block_allowed, if_pos rfl]
        simp
      · rw [is_alternative_block_allowed, if_neg h0, hq]
        simp

theorem is_alternative_block_allowed_spec_witness :
    is_alternative_block_allowed [(100, null_hash)] 150 101 = true ↔ 100 < 101 :=
  (is_alternative_block_allowed_spec [(100, null_hash)] 150 101).2.2 100
    (by decide) (by decide) (by decide)

/-- Claim C3: `check_block` reports (accepted = true, is_checkpoint = false)
when the Store has no entry at the height, (true, true) when the entry equals
the queried hash, and (false, true) when the entry differs from it. -/
theorem check_block_spec (s : Store) (height : Nat) (h : Hash) :
    (lookup s height = none → check_block s height h = (true, false)) ∧
    (lookup s height = some h → check_block s height h = (true, true)) ∧
    (∀ h0, lookup s height = some h0 → h0 ≠ h →
      check_block s height h = (false, true)) := by
  refine ⟨?_, ?_, ?_⟩
  · intro hnone
    rw [check_block, hnone]
  · intro hsome
    rw [check_block, hsome]
    simp
  · intro h0 hsome hne
    rw [check_block, hsome]
    simp [hne]

theorem check_block_spec_witness :
    check_block [(100, null_hash)] 100 null_hash = (true, true) :=
  (check_block_spec [(100, null_hash)] 100 null_hash).2.1 (by decide)

/-- Claim C4: when a height is already present mapping to `hash1`, adding at
that height succeeds iff the new hash text decodes to exactly `hash1`, and in
both the success and the failure case the Store afterwards equals the Store
before the call. -/
theorem add_checkpoint_existing_spec (s : Store) (ht : Nat) (hash1 : Hash)
    (str : String) (hmem : lookup s ht = some hash1) :
    ((add_checkpoint s ht str).1 = true ↔ hex_to_pod str = some hash1) ∧
    (add_checkpoint s ht str).2 = s := by
  have hk : ht ∈ keys s := by
    by_contra hc
    exact Option.noConfusion (hmem.symm.trans ((lookup_eq_none_iff s ht).mpr hc))
  have hcnt : countKey s ht = true := (countKey_eq_true_iff s ht).mpr hk
  cases hp : hex_to_pod str with
  | none =>
    rw [add_checkpoint_of_decode_fail s ht str hp]
    simp [hp]
  | some h2 =>
    simp only [add_checkpoint, hp]
    by_cases heq : h2 = hash1
    · subst heq
      rw [if_neg (by simp [hmem])]
      exact ⟨by simp, insertPoint_eq_self s ht h2 hmem⟩
    · rw [if_pos ⟨hcnt, by
        rw [hmem]
        exact fun e => heq (Option.some_injective _ e).symm⟩]
      constructor
      · simp [heq]
      · rfl

theorem add_checkpoint_existing_spec_witness :
    ((add_checkpoint [(3, null_hash)] 3 "ab").1 = true ↔
      hex_to_pod "ab" = some null_hash) ∧
    (add_checkpoint [(3, null_hash)] 3 "ab").2 = [(3, null_hash)] :=
  add_checkpoint_existing_spec [(3, null_hash)] 3 null_hash "ab" (by decide)

/-- Claim C5: after a successful parse, the merge computes exactly the standard
add path run in document order over the entries whose height strictly exceeds
the pre-call maximum height. Entries at or below it are skipped outright: the
skip equation holds for every hash text uniformly, so a skipped text is never
decoded and never conflict-checked. -/
theorem load_from_json_skips_old_heights (s : Store) (lines : List (Nat × String))
    (pm : Nat) (hpm : get_max_height s = some pm) :
    load_checkpoints_from_json (some (some lines)) s =
      some (foldAdd (lines.filter (fun e => decide (pm < e.1))) s) ∧
    ∀ (h : Nat) (str : String) (rest : List (Nat × String)) (s2 : Store),
      h ≤ pm → processLines pm ((h, str) :: rest) s2 = processLines pm rest s2 := by
  constructor
  · simp only [load_checkpoints_from_json, hpm]
    rw [processLines_eq_foldAdd_filter]
  · intro h str rest s2 hle
    rw [processLines, if_pos hle]

theorem load_from_json_skips_old_heights_witness :
    load_checkpoints_from_json (some (some [(2, "zz")])) [(3, null_hash)] =
      some (foldAdd ([(2, "zz")].filter (fun e => decide (3 < e.1)))
        [(3, null_hash)]) :=
  (load_from_json_skips_old_heights [(3, null_hash)] [(2, "zz")] 3 (by decide)).1

/-- Claim C6: `is_in_checkpoint_zone` holds iff the Store is non-empty and the
height is at most the greatest checkpoint height, equivalently iff some
checkpoint height is at least the queried height; hence it is false everywhere
on the empty Store, and after inserting a height `H` that is the new maximum it
holds at `H` and fails at `H + 1`. -/
theorem is_in_checkpoint_zone_spec (s : Store) (height H : Nat) (v : Hash) :
    (is_in_checkpoint_zone s height = true ↔ ∃ k ∈ keys s, height ≤ k) ∧
    is_in_checkpoint_zone ([] : Store) height = false ∧
    ((∀ k ∈ keys (insertPoint s H v), k ≤ H) →
      is_in_checkpoint_zone (insertPoint s H v) H = true ∧
      is_in_checkpoint_zone (insertPoint s H v) (H + 1) = false) := by
  refine ⟨in_zone_iff s height, rfl, ?_⟩
  intro hmax
  constructor
  · exact (in_zone_iff _ H).mpr ⟨H, mem_keys_insertPoint s H v, le_rfl⟩
  · apply Bool.eq_false_iff.mpr
    intro hcontra
    rw [in_zone_iff] at hcontra
    obtain ⟨k, hk, hle⟩ := hcontra
    have := hmax k hk
    omega

theorem is_in_checkpoint_zone_spec_witness :
    is_in_checkpoint_zone (insertPoint [] 7 null_hash) 7 = true ∧
    is_in_checkpoint_zone (insertPoint [] 7 null_hash) (7 + 1) = false :=
  (is_in_checkpoint_zone_spec [] 7 7 null_hash).2.2 (by decide)

/-- Claim C7: a hash text of the wrong length or with non-hex content fails to
decode, and `add_checkpoint` then fails leaving the Store exactly unchanged, at
every height; moreover every successful decode yields exactly 32 bytes. -/
theorem add_checkpoint_rejects_malformed (s : Store) (height : Nat) (str : String)
    (hbad : str.length ≠ 64 ∨ ∃ c ∈ str.data, hexDigit c = none) :
    hex_to_pod str = none ∧ add_checkpoint s height str = (false, s) ∧
    ∀ (str2 : String) (h2 : Hash), hex_to_pod str2 = some h2 → h2.length = 32 := by
  have hn := hex_to_pod_eq_none str hbad
  exact ⟨hn, add_checkpoint_of_decode_fail s height str hn,
    fun str2 h2 hs => hex_to_pod_some_length str2 h2 hs⟩

theorem add_checkpoint_rejects_malformed_witness :
    hex_to_pod "xyz" = none ∧ add_checkpoint [] 5 "xyz" = (false, []) :=
  ⟨(add_checkpoint_rejects_malformed [] 5 "xyz" (Or.inl (by decide))).1,
   (add_checkpoint_rejects_malformed [] 5 "xyz" (Or.inl (by decide))).2.1⟩

/-- Claim C8: loading from a path holding no document returns success and
leaves the Store exactly unchanged. -/
theorem load_from_json_missing_file (s : Store) :
    load_checkpoints_from_json none s = some (true, s) := rfl

/-- Claim C9: `check_for_conflicts` fails iff some height present in both
Stores maps to different hashes in the two, and succeeds otherwise; the method
is `const` on both Stores, so neither is mutated in any case (the model is a
pure function of the two Stores). -/
theorem check_for_conflicts_spec (a b : Store) (hnd : (keys b).Nodup) :
    check_for_conflicts a b = false ↔
      ∃ (k : Nat) (ha hb2 : Hash),
        lookup a k = some ha ∧ lookup b k = some hb2 ∧ ha ≠ hb2 := by
  constructor
  · intro hfalse
    have hnot : ¬ (check_for_conflicts a b = true) := by simp [hfalse]
    simp only [check_for_conflicts, List.all_eq_true] at hnot
    push_neg at hnot
    obtain ⟨pt, hptmem, hptfail⟩ := hnot
    by_cases hc : countKey a pt.1 = true
    · rw [if_pos hc] at hptfail
      have hne2 : ¬ (lookup a pt.1 = some pt.2) := by simpa using hptfail
      obtain ⟨va, hva⟩ := (countKey_lookup a pt.1).mp hc
      exact ⟨pt.1, va, pt.2, hva,
        lookup_eq_of_mem b pt.1 pt.2 hnd hptmem,
        fun e => hne2 (hva.trans (congrArg some e))⟩
    · rw [if_neg hc] at hptfail
      exact absurd rfl hptfail
  · rintro ⟨k, ha, hb2, hla, hlb, hne⟩
    cases hcase : check_for_conflicts a b with
    | false => rfl
    | true =>
      exfalso
      simp only [check_for_conflicts, List.all_eq_true] at hcase
      have hp := hcase (k, hb2) (lookup_mem b k hb2 hlb)
      rw [if_pos ((countKey_lookup a k).mpr ⟨ha, hla⟩)] at hp
      have hlab : lookup a k = some hb2 := by simpa using hp
      exact hne (Option.some_injective _ (hla.symm.trans hlab))

theorem check_for_conflicts_spec_witness :
    check_for_conflicts [(1, null_hash)] [(1, List.replicate 32 1)] = false :=
  (check_for_conflicts_spec [(1, null_hash)] [(1, List.replicate 32 1)]
      (by decide)).mpr
    ⟨1, null_hash, List.replicate 32 1, by decide, by decide, by decide⟩

/-- Claim C10: when a document exists at the path, the loader queries the
maximum height before parsing and without an emptiness check, so on the empty
Store every existing document (parsable or not) reaches the empty-map maximum
query and the run is undefined (modelled `none`); with at least one entry in
the Store the run is well-defined. -/
theorem load_from_json_requires_nonempty (doc : Option (List (Nat × String)))
    (s : Store) :
    (s = [] → load_checkpoints_from_json (some doc) s = none) ∧
    (s ≠ [] → ∃ r, load_checkpoints_from_json (some doc) s = some r) := by
  constructor
  · rintro rfl
    rfl
  · intro hne
    cases hk : get_max_height s with
    | none => exact absurd ((get_max_height_eq_none_iff s).mp hk) hne
    | some pm =>
      cases doc with
      | none => exact ⟨(false, s), by simp [load_checkpoints_from_json, hk]⟩
      | some lines =>
        exact ⟨processLines pm lines s, by simp [load_checkpoints_from_json, hk]⟩

theorem load_from_json_requires_nonempty_witness :
    load_checkpoints_from_json (some (some [])) ([] : Store) = none :=
  (load_from_json_requires_nonempty (some []) []).1 rfl

end cryptonote
